import Mathlib

/-!
# Verification of the hopf fibration curve/resampling/mesh core

Shallow embedding of the core of the `hopf` repository
(`src/lib/src/{lib,fibre,length,mesh,sp,obj}.rs` and
`src/bevy_hopf/src/hopf.rs`) over exact rationals.

Modelling conventions:
* `f32` arithmetic is idealised as exact `ℚ` arithmetic; numeric literals of
  the source (`0.8`, `1.2`, `0.001`, `1e-3`) denote the rationals they are
  written as, while the compile-time constants `f32::EPSILON` and
  `core::f32::consts::PI` are embedded as the exact rational values of those
  `f32` bit patterns (`f32Eps`, `pi32`).
* The `f32` square root (`glam`'s `Vec3::length`/`Vec3::distance`/`normalize`,
  external library code, not part of this repository) has no exact rational
  counterpart; it is passed as an explicit function parameter `sq : ℚ → ℚ`
  standing for `sqrt`; theorems quantify over `sq` (with a nonnegativity
  hypothesis where the property needs it), hence cover the real square root.
* The projected curve closure produced by `Fibre::projected_fibre` (built from
  `f32` trigonometric functions) is passed to the resampling operations as a
  function parameter `fibre : ℚ → Vertex`, exactly as the source passes the
  closure.
* Rust loops are embedded with explicit fuel; a `none` result means the fuel
  ran out, `some` carries the source's `Result`.
* `std::collections::HashMap` keyed by the bit-exact `Vertex` is modelled as
  an association list with first-match lookup; keys are inserted at most once,
  so lookup agrees with the hash map.
-/

/-- `f32::EPSILON` = 2⁻²³ as an exact rational. -/
def f32Eps : ℚ := 1 / 2 ^ 23

/-- `core::f32::consts::PI` (bit pattern 0x40490FDB) as an exact rational. -/
def pi32 : ℚ := 13176795 / 4194304

/-- `static ALPHA_MAX: f32 = 4.0 * PI` — the fibre domain is `0..4π`. -/
def ALPHA_MAX : ℚ := 4 * pi32

/-- `Vertex(pub Vec3)` from `src/lib/src/lib.rs`: a point of E³. Equality is
the source's bit-exact equality (exact equality of the embedded rationals). -/
structure Vertex where
  x : ℚ
  y : ℚ
  z : ℚ
deriving DecidableEq, Repr

/-- `impl Sub for Vertex` (componentwise subtraction). -/
def Vertex.sub (a b : Vertex) : Vertex :=
  ⟨a.x - b.x, a.y - b.y, a.z - b.z⟩

/-- `Vertex::dot`: `z.mul_add(rhs.z, x.mul_add(rhs.x, y * rhs.y))`
(`mul_add a b c = a*b + c`, exact here). -/
def Vertex.dot (a b : Vertex) : ℚ :=
  a.z * b.z + (a.x * b.x + a.y * b.y)

/-- `Vertex::length`: `sqrt(self.dot(self))`, with `sq` standing for the
`f32` square root. -/
def Vertex.length (sq : ℚ → ℚ) (v : Vertex) : ℚ :=
  sq (v.dot v)

/-- `glam::Vec3::distance(self, rhs) = (self - rhs).length()`, with `sq`
standing for the `f32` square root. -/
def Vertex.distance (sq : ℚ → ℚ) (a b : Vertex) : ℚ :=
  Vertex.length sq (a.sub b)

/-- Outcome of a Rust function that either returns a value or panics. -/
inductive ProjectResult
  | panicked (msg : String)
  | ok (v : Vertex)
deriving DecidableEq, Repr

/-- `project` from `src/lib/src/lib.rs` (lines 113–130): stereographic
projection of a point of S³ onto E³.  When `|1 - X3| < f32::EPSILON` the
source executes `panic!("division by zero")`; the panic is modelled as the
explicit outcome `ProjectResult.panicked`. -/
def project (X0 X1 X2 X3 : ℚ) : ProjectResult :=
  if |1 - X3| < f32Eps then
    ProjectResult.panicked "division by zero"
  else
    ProjectResult.ok ⟨X0 / (1 - X3), X1 / (1 - X3), X2 / (1 - X3)⟩

/-- C1 (counterexample): at the concrete singular input `(0, 0, 0, 1)` the
projection panics; it does not signal the singularity as an explicit
(error) result value, contradicting the claim as stated. -/
theorem project_singular_input_panics :
    project 0 0 0 1 = ProjectResult.panicked "division by zero" := by
  norm_num [project, f32Eps]

/-- C1 (amended): for every input with `|1 - X3| < f32::EPSILON` the
projection panics with message "division by zero" — the singularity is
signalled by a panic (documented under `# Panics`), not by an explicit
result value. -/
theorem project_singular_panics (X0 X1 X2 X3 : ℚ)
    (h : |1 - X3| < f32Eps) :
    project X0 X1 X2 X3 = ProjectResult.panicked "division by zero" := by
  simp [project, h]

/-- C1 (witness): the amended theorem applied at the pole `(0, 0, 0, 1)`. -/
theorem project_singular_panics_witness :
    |1 - (1 : ℚ)| < f32Eps ∧
      project 0 0 0 1 = ProjectResult.panicked "division by zero" :=
  ⟨by norm_num [f32Eps], project_singular_panics 0 0 0 1 (by norm_num [f32Eps])⟩

/-- C5: for every input satisfying the precondition (`X3 ≠ 1` and `|1 - X3|`
not below machine epsilon), the projection returns exactly
`(X0/(1−X3), X1/(1−X3), X2/(1−X3))`. -/
theorem project_ok (X0 X1 X2 X3 : ℚ) (_hne : X3 ≠ 1)
    (h : ¬ |1 - X3| < f32Eps) :
    project X0 X1 X2 X3 =
      ProjectResult.ok ⟨X0 / (1 - X3), X1 / (1 - X3), X2 / (1 - X3)⟩ := by
  simp [project, h]

/-- C5 (witness): the projection theorem applied at the concrete input
`(1, 2, 3, 0)`, which it maps to `(1, 2, 3)`. -/
theorem project_ok_witness :
    (0 : ℚ) ≠ 1 ∧ ¬ |1 - (0 : ℚ)| < f32Eps ∧
      project 1 2 3 0 = ProjectResult.ok ⟨1, 2, 3⟩ := by
  refine ⟨by norm_num, by norm_num [f32Eps], ?_⟩
  have h := project_ok 1 2 3 0 (by norm_num) (by norm_num [f32Eps])
  simpa using h

/-- `SurfacePoint` from `src/lib/src/sp.rs`: a point on the base 2-sphere
given by latitude and longitude in radians. -/
structure SurfacePoint where
  lat : ℚ
  lon : ℚ
deriving DecidableEq, Repr

/-- `weave` from `src/lib/src/mesh.rs` (lines 12–26): linear interpolation of
`n_loops` seed points between `p1` and `p2`
(`lat = i.mul_add(lat_step, p1.lat)`, likewise for `lon`).  The source
contains no degeneracy check and has no error return type. -/
def weave (p1 p2 : SurfacePoint) (nLoops : ℕ) : List SurfacePoint :=
  let latStep := (p2.lat - p1.lat) / (nLoops : ℚ)
  let longStep := (p2.lon - p1.lon) / (nLoops : ℚ)
  (List.range nLoops).map fun (index : ℕ) =>
    { lat := (index : ℚ) * latStep + p1.lat
      lon := (index : ℚ) * longStep + p1.lon }

/-- C4 (counterexample): with identical start and end seeds, `weave` returns
the degenerate two-element family `[p, p]` as an ordinary value — no
`DegenerateSeedRange` error is signalled (no error type exists in `weave`'s
signature). -/
theorem weave_degenerate_counterexample :
    weave ⟨1/2, 1/4⟩ ⟨1/2, 1/4⟩ 2 =
      [⟨1/2, 1/4⟩, ⟨1/2, 1/4⟩] := by
  simp [weave, List.range_succ]

/-- C4 (amended): `weave` performs no start ≠ end check; for every pair of
identical seeds it silently returns `n_loops` copies of the start seed
instead of signalling `DegenerateSeedRange`. -/
theorem weave_degenerate_replicates (p : SurfacePoint) (nLoops : ℕ) :
    weave p p nLoops = List.replicate nLoops p := by
  have hmap : weave p p nLoops = (List.range nLoops).map fun _ => p := by
    unfold weave
    refine List.map_congr_left fun i _ => ?_
    simp
  rw [hmap, List.map_const', List.length_range]

/-- First-match lookup in the association-list model of
`HashMap<Vertex, _>::get`. -/
def storeGet (store : List (Vertex × ℕ)) (p : Vertex) : Option ℕ :=
  (store.find? fun e => e.1 = p).map Prod.snd

/-- `Obj` from `src/lib/src/obj.rs`: accumulator for OBJ output.  The
`HashMap` vertex store is modelled as an association list; quads are kept
keyed by object name. -/
structure Obj where
  next_index : ℕ
  vertex_store : List (Vertex × ℕ)
  quad_store : List (String × List (ℕ × ℕ × ℕ × ℕ))
deriving DecidableEq, Repr

/-- `Obj::add_vertex` (lines 36–47): deduplicating insertion returning the
index (and the updated accumulator, standing for `&mut self`). -/
def Obj.add_vertex (o : Obj) (p : Vertex) : ℕ × Obj :=
  match storeGet o.vertex_store p with
  | some v => (v, o)
  | none =>
    (o.next_index,
     { o with
        vertex_store := (p, o.next_index) :: o.vertex_store
        next_index := o.next_index + 1 })

/-- `HopfMeshBuilder` from `src/bevy_hopf/src/hopf.rs`: mesh accumulator with
a deduplicating vertex store, a vertex buffer, a flat triangle index list and
a per-vertex normal buffer.  (The `hopf : Hopf` configuration field is
omitted: none of the embedded operations read it.) -/
structure HopfMeshBuilder where
  next_index : ℕ
  vertex_deduple : List (Vertex × ℕ)
  vertex_buffer : List Vertex
  triangle_store : List ℕ
  normals_store : List Vertex
deriving DecidableEq, Repr

/-- `HopfMeshBuilder::add_vertex` (lines 82–95): returns
`(is_new, index)` together with the updated builder. -/
def HopfMeshBuilder.add_vertex (b : HopfMeshBuilder) (p : Vertex) :
    (Bool × ℕ) × HopfMeshBuilder :=
  match storeGet b.vertex_deduple p with
  | some v => ((false, v), b)
  | none =>
    ((true, b.next_index),
     { b with
        vertex_deduple := (p, b.next_index) :: b.vertex_deduple
        vertex_buffer := b.vertex_buffer ++ [p]
        next_index := b.next_index + 1 })

/-- `glam::Vec3::cross` (external library), used by `add_triangle`. -/
def Vertex.cross (u v : Vertex) : Vertex :=
  ⟨u.y * v.z - u.z * v.y, u.z * v.x - u.x * v.z, u.x * v.y - u.y * v.x⟩

/-- `glam::Vec3::normalize` (external library): `self * (1 / length)`, with
`sq` standing for the `f32` square root. -/
def Vertex.normalize (sq : ℚ → ℚ) (v : Vertex) : Vertex :=
  ⟨v.x / Vertex.length sq v, v.y / Vertex.length sq v, v.z / Vertex.length sq v⟩

/-- `HopfMeshBuilder::add_triangle` (lines 99–132): dedups the three corners,
pushes their indices, and pushes one freshly computed face normal for each
corner that was new. -/
def HopfMeshBuilder.add_triangle (sq : ℚ → ℚ) (b : HopfMeshBuilder)
    (p0 p1 p2 : Vertex) : HopfMeshBuilder :=
  let r0 := b.add_vertex p0
  let r1 := r0.2.add_vertex p1
  let r2 := r1.2.add_vertex p2
  let b3 := { r2.2 with
    triangle_store := r2.2.triangle_store ++ [r0.1.2, r1.1.2, r2.1.2] }
  let b4 :=
    if r0.1.1 then
      { b3 with normals_store := b3.normals_store ++
          [Vertex.normalize sq (Vertex.cross (p1.sub p0) (p2.sub p0))] }
    else b3
  let b5 :=
    if r1.1.1 then
      { b4 with normals_store := b4.normals_store ++
          [Vertex.normalize sq (Vertex.cross (p2.sub p1) (p0.sub p1))] }
    else b4
  if r2.1.1 then
    { b5 with normals_store := b5.normals_store ++
        [Vertex.normalize sq (Vertex.cross (p0.sub p2) (p1.sub p2))] }
  else b5

/-- After a `HopfMeshBuilder::add_vertex`, looking the same point up again
yields exactly the returned index. -/
theorem add_vertex_storeGet (b : HopfMeshBuilder) (p : Vertex) :
    storeGet (b.add_vertex p).2.vertex_deduple p =
      some (b.add_vertex p).1.2 := by
  rcases h : storeGet b.vertex_deduple p with - | v
  · simp only [HopfMeshBuilder.add_vertex, h]
    simp [storeGet]
  · simp only [HopfMeshBuilder.add_vertex, h]

/-- `HopfMeshBuilder::add_vertex` on a point already in the store returns its
index with `is_new = false` and leaves the builder unchanged. -/
theorem add_vertex_found (b : HopfMeshBuilder) (p : Vertex) (v : ℕ)
    (h : storeGet b.vertex_deduple p = some v) :
    b.add_vertex p = ((false, v), b) := by
  simp only [HopfMeshBuilder.add_vertex, h]

/-- After an `Obj::add_vertex`, looking the same point up again yields
exactly the returned index. -/
theorem Obj_add_vertex_storeGet (o : Obj) (p : Vertex) :
    storeGet (o.add_vertex p).2.vertex_store p = some (o.add_vertex p).1 := by
  rcases h : storeGet o.vertex_store p with - | v
  · simp only [Obj.add_vertex, h]
    simp [storeGet]
  · simp only [Obj.add_vertex, h]

/-- `Obj::add_vertex` on a point already in the store returns its index and
leaves the accumulator unchanged. -/
theorem Obj_add_vertex_found (o : Obj) (p : Vertex) (v : ℕ)
    (h : storeGet o.vertex_store p = some v) :
    o.add_vertex p = (v, o) := by
  simp only [Obj.add_vertex, h]

/-- C8: inserting the same bit-exact `Vertex` twice returns the same index
both times, and the second insertion changes nothing — in particular it does
not grow the vertex buffer.  Stated for both deduplicating stores of the
repository (`HopfMeshBuilder::add_vertex` and `Obj::add_vertex`). -/
theorem add_vertex_idempotent (b : HopfMeshBuilder) (o : Obj) (p : Vertex) :
    ((b.add_vertex p).2.add_vertex p).1.2 = (b.add_vertex p).1.2 ∧
      ((b.add_vertex p).2.add_vertex p).2.vertex_buffer =
        (b.add_vertex p).2.vertex_buffer ∧
      ((o.add_vertex p).2.add_vertex p).1 = (o.add_vertex p).1 ∧
      ((o.add_vertex p).2.add_vertex p).2 = (o.add_vertex p).2 := by
  have hb := add_vertex_found (b.add_vertex p).2 p (b.add_vertex p).1.2
    (add_vertex_storeGet b p)
  have ho := Obj_add_vertex_found (o.add_vertex p).2 p (o.add_vertex p).1
    (Obj_add_vertex_storeGet o p)
  rw [hb, ho]
  exact ⟨rfl, rfl, rfl, rfl⟩

/-- Case shape of `HopfMeshBuilder::add_vertex`: a new point extends the
vertex buffer by exactly that point, a seen point leaves it unchanged; the
normal buffer is never touched by `add_vertex`. -/
theorem add_vertex_shape (b : HopfMeshBuilder) (p : Vertex) :
    ((b.add_vertex p).1.1 = true ∧
        (b.add_vertex p).2.vertex_buffer = b.vertex_buffer ++ [p] ∧
        (b.add_vertex p).2.normals_store = b.normals_store) ∨
      ((b.add_vertex p).1.1 = false ∧
        (b.add_vertex p).2.vertex_buffer = b.vertex_buffer ∧
        (b.add_vertex p).2.normals_store = b.normals_store) := by
  rcases h : storeGet b.vertex_deduple p with - | v
  · left
    simp [HopfMeshBuilder.add_vertex, h]
  · right
    simp [HopfMeshBuilder.add_vertex, h]

/-- C9: `HopfMeshBuilder::add_triangle` preserves the invariant that the
normal buffer and the vertex buffer have the same length (each corner that is
new pushes exactly one vertex and one normal); hence after assembly, which
starts from two empty buffers and only calls `add_triangle`, the two lengths
coincide. -/
theorem add_triangle_parity (sq : ℚ → ℚ) (b : HopfMeshBuilder)
    (p0 p1 p2 : Vertex)
    (h : b.normals_store.length = b.vertex_buffer.length) :
    (HopfMeshBuilder.add_triangle sq b p0 p1 p2).normals_store.length =
      (HopfMeshBuilder.add_triangle sq b p0 p1 p2).vertex_buffer.length := by
  unfold HopfMeshBuilder.add_triangle
  rcases add_vertex_shape b p0 with ⟨h0, hb0, hn0⟩ | ⟨h0, hb0, hn0⟩ <;>
    rcases add_vertex_shape (b.add_vertex p0).2 p1 with ⟨h1, hb1, hn1⟩ | ⟨h1, hb1, hn1⟩ <;>
    rcases add_vertex_shape ((b.add_vertex p0).2.add_vertex p1).2 p2 with
      ⟨h2, hb2, hn2⟩ | ⟨h2, hb2, hn2⟩ <;>
    simp [h0, h1, h2, hb0, hb1, hb2, hn0, hn1, hn2, h]

/-- C9 (witness): the parity theorem applied to a fresh builder (as built by
`HopfMeshBuilder::new`: empty buffers, `next_index = 1`) and one concrete
triangle. -/
theorem add_triangle_parity_witness :
    (HopfMeshBuilder.add_triangle (fun x => x) ⟨1, [], [], [], []⟩
        ⟨0, 0, 0⟩ ⟨1, 0, 0⟩ ⟨0, 1, 0⟩).normals_store.length =
      (HopfMeshBuilder.add_triangle (fun x => x) ⟨1, [], [], [], []⟩
        ⟨0, 0, 0⟩ ⟨1, 0, 0⟩ ⟨0, 1, 0⟩).vertex_buffer.length :=
  add_triangle_parity (fun x => x) ⟨1, [], [], [], []⟩ _ _ _ rfl

/-- Body of the `array::from_fn` closure of `searchable_path_length`
(`src/lib/src/length.rs`, lines 36–57): entry `i` is
`(i * alpha_step + alpha_start, accumulated chord length)`, with the mutable
captures `f_last` and `d` threaded explicitly; `k` is the number of entries
still to produce. -/
def splAux (fibre : ℚ → Vertex) (sq : ℚ → ℚ) (alphaStep alphaStart : ℚ) :
    ℕ → ℕ → Vertex → ℚ → List (ℚ × ℚ)
  | 0, _, _, _ => []
  | k + 1, i, fLast, d =>
    let alpha := (i : ℚ) * alphaStep + alphaStart
    let f := fibre alpha
    let d2 := d + Vertex.length sq (f.sub fLast)
    (alpha, d2) :: splAux fibre sq alphaStep alphaStart k (i + 1) f d2

/-- `searchable_path_length` (`src/lib/src/length.rs`, lines 36–57): the
fine-grained `(parameter, cumulative chord length)` lookup table of
`n` entries over the parameter range. -/
def searchable_path_length (fibre : ℚ → Vertex) (sq : ℚ → ℚ)
    (alphaStart alphaEnd : ℚ) (n : ℕ) : List (ℚ × ℚ) :=
  splAux fibre sq ((alphaEnd - alphaStart) / (n : ℚ)) alphaStart n 0
    (fibre alphaStart) 0

/-- `resample_fibre` (`src/lib/src/length.rs`, lines 61–97): reduce the fine
lookup table to `nCoarse` uniformly-spaced `(parameter, distance)` values;
slot `i` is the first fine entry at cumulative distance
`≥ i * (total / (nCoarse - 1))`; an unresolved endpoint within `1e-3` of the
last entry resolves to the last entry, otherwise the source's
`(f32::NAN, f32::NAN)` sentinel, modelled as `none`. -/
def resample_fibre (fibre : ℚ → Vertex) (sq : ℚ → ℚ)
    (alphaStart alphaEnd : ℚ) (nDetailed nCoarse : ℕ) :
    List (Option (ℚ × ℚ)) :=
  let lut := searchable_path_length fibre sq alphaStart alphaEnd nDetailed
  let step := ((lut.getLast?.map Prod.snd).getD 0) / ((nCoarse : ℚ) - 1)
  (List.range nCoarse).map fun (i : ℕ) =>
    let distThreshold := (i : ℚ) * step
    match lut.find? fun e => distThreshold ≤ e.2 with
    | some e => some e
    | none =>
      match lut.getLast? with
      | some le => if |le.2 - distThreshold| < 1 / 1000 then some le else none
      | none => none

/-- The self-dot of a vertex is a sum of squares, hence nonnegative. -/
theorem Vertex.dot_self_nonneg (v : Vertex) : 0 ≤ v.dot v := by
  unfold Vertex.dot
  nlinarith [mul_self_nonneg v.x, mul_self_nonneg v.y, mul_self_nonneg v.z]

/-- Head of a nonempty stretch of lookup-table entries. -/
theorem splAux_head (fibre : ℚ → Vertex) (sq : ℚ → ℚ)
    (alphaStep alphaStart : ℚ) (k i : ℕ) (fLast : Vertex) (d : ℚ) :
    (splAux fibre sq alphaStep alphaStart (k + 1) i fLast d).head? =
      some ((i : ℚ) * alphaStep + alphaStart,
        d + Vertex.length sq
          ((fibre ((i : ℚ) * alphaStep + alphaStart)).sub fLast)) := by
  simp [splAux]

/-- Both components of consecutive lookup-table entries are monotone
non-decreasing, provided the parameter step is nonnegative and `sq` maps
nonnegative inputs to nonnegative outputs. -/
theorem splAux_chain (fibre : ℚ → Vertex) (sq : ℚ → ℚ)
    (alphaStep alphaStart : ℚ)
    (hsq : ∀ x, 0 ≤ x → 0 ≤ sq x) (hstep : 0 ≤ alphaStep) :
    ∀ (k i : ℕ) (fLast : Vertex) (d : ℚ),
      List.Chain' (fun e e2 => e.1 ≤ e2.1 ∧ e.2 ≤ e2.2)
        (splAux fibre sq alphaStep alphaStart k i fLast d) := by
  intro k
  induction k with
  | zero => intro i fLast d; simp [splAux]
  | succ k ih =>
    intro i fLast d
    rw [splAux]
    refine List.chain'_cons'.mpr ⟨?_, ih (i + 1) _ _⟩
    intro b hb
    cases k with
    | zero => simp [splAux] at hb
    | succ k2 =>
      rw [splAux_head] at hb
      simp only [Option.mem_def, Option.some_inj] at hb
      subst hb
      constructor
      · have : (i : ℚ) ≤ (i : ℚ) + 1 := by linarith
        push_cast
        nlinarith
      · have := hsq _ (Vertex.dot_self_nonneg
          ((fibre ((((i : ℕ) + 1 : ℕ) : ℚ) * alphaStep + alphaStart)).sub
            (fibre ((i : ℚ) * alphaStep + alphaStart))))
        simp only [Vertex.length]
        push_cast
        push_cast at this
        linarith

/-- C7: in every built lookup table, each pair of adjacent entries
`(a_i, d_i)`, `(a_{i+1}, d_{i+1})` satisfies `a_i ≤ a_{i+1}` and
`d_i ≤ d_{i+1}`, for every curve, every nondegenerate parameter range and
every table size, whenever `sq` (the `f32` square root) is nonnegative on
nonnegative inputs. -/
theorem searchable_path_length_monotone (fibre : ℚ → Vertex) (sq : ℚ → ℚ)
    (alphaStart alphaEnd : ℚ) (n : ℕ)
    (hsq : ∀ x, 0 ≤ x → 0 ≤ sq x) (hrange : alphaStart ≤ alphaEnd) :
    List.Chain' (fun e e2 => e.1 ≤ e2.1 ∧ e.2 ≤ e2.2)
      (searchable_path_length fibre sq alphaStart alphaEnd n) := by
  unfold searchable_path_length
  refine splAux_chain fibre sq _ alphaStart hsq ?_ n 0 _ 0
  have hn : (0 : ℚ) ≤ (n : ℚ) := by positivity
  rcases eq_or_lt_of_le hn with h | h
  · rw [← h]
    simp
  · exact div_nonneg (by linarith) (le_of_lt h)

/-- C7 (witness): the monotonicity theorem applied to a concrete curve
(`α ↦ (α, 0, 0)`), range `[0, 1]`, table size 2, and `sq` the identity. -/
theorem searchable_path_length_monotone_witness :
    (0 : ℚ) ≤ 1 ∧
      List.Chain' (fun e e2 => e.1 ≤ e2.1 ∧ e.2 ≤ e2.2)
        (searchable_path_length (fun a => ⟨a, 0, 0⟩) (fun x => x) 0 1 2) :=
  ⟨by norm_num,
    searchable_path_length_monotone (fun a => ⟨a, 0, 0⟩) (fun x => x) 0 1 2
      (fun _ h => h) (by norm_num)⟩

/-- C3: for every curve, range, table size and output count, and every slot
`i < nCoarse` whose target distance `i * (total_length / (nCoarse - 1))` is
reached by some table entry, lookup-table inversion fills the slot with the
FIRST table entry whose cumulative length is at least the target — the
entry's parameter is used directly, with no interpolation between entries
(the slot value is literally an element of the table). -/
theorem resample_fibre_slot (fibre : ℚ → Vertex) (sq : ℚ → ℚ)
    (alphaStart alphaEnd : ℚ) (nDetailed nCoarse i : ℕ)
    (lut : List (ℚ × ℚ)) (thr : ℚ) (e : ℚ × ℚ)
    (hlut : lut = searchable_path_length fibre sq alphaStart alphaEnd nDetailed)
    (hthr : thr =
      (i : ℚ) * (((lut.getLast?.map Prod.snd).getD 0) / ((nCoarse : ℚ) - 1)))
    (_h2 : 2 ≤ nCoarse) (hi : i < nCoarse)
    (hfind : (lut.find? fun e2 => thr ≤ e2.2) = some e) :
    (resample_fibre fibre sq alphaStart alphaEnd nDetailed nCoarse)[i]? =
        some (some e) ∧
      thr ≤ e.2 ∧
      ∃ pre post, lut = pre ++ e :: post ∧ ∀ x ∈ pre, ¬ thr ≤ x.2 := by
  have hdec := List.find?_eq_some.mp hfind
  obtain ⟨hpe, pre, post, hsplit, hpre⟩ := hdec
  refine ⟨?_, by simpa using hpe, pre, post, hsplit, ?_⟩
  · unfold resample_fibre
    rw [← hlut]
    simp only [List.getElem?_map, List.getElem?_range hi, Option.map_some']
    rw [← hthr, hfind]
  · intro x hx
    have := hpre x hx
    simpa using this

/-- C3 (witness): the slot theorem applied to the concrete curve
`α ↦ (α, 0, 0)` on `[0, 1]` with a 3-entry table, 2 output slots, slot 1:
the first entry at cumulative length ≥ the target `2/9` is `(2/3, 2/9)` and
it fills the slot directly. -/
theorem resample_fibre_slot_witness :
    ((searchable_path_length (fun a => ⟨a, 0, 0⟩) (fun x => x) 0 1 3).find?
        fun e2 => ((1 : ℕ) : ℚ) *
          ((((searchable_path_length (fun a => ⟨a, 0, 0⟩)
              (fun x => x) 0 1 3).getLast?.map Prod.snd).getD 0) /
            (((2 : ℕ) : ℚ) - 1)) ≤ e2.2) = some (2/3, 2/9) ∧
      (resample_fibre (fun a => ⟨a, 0, 0⟩) (fun x => x) 0 1 3 2)[1]? =
        some (some (2/3, 2/9)) := by
  have hfind : ((searchable_path_length (fun a => ⟨a, 0, 0⟩)
      (fun x => x) 0 1 3).find?
        fun e2 => ((1 : ℕ) : ℚ) *
          ((((searchable_path_length (fun a => ⟨a, 0, 0⟩)
              (fun x => x) 0 1 3).getLast?.map Prod.snd).getD 0) /
            (((2 : ℕ) : ℚ) - 1)) ≤ e2.2) = some (2/3, 2/9) := by
    norm_num [searchable_path_length, splAux, Vertex.length, Vertex.sub,
      Vertex.dot, List.find?]
  exact ⟨hfind,
    (resample_fibre_slot (fun a => ⟨a, 0, 0⟩) (fun x => x) 0 1 3 2 1 _ _ _
      rfl rfl (by norm_num) (by norm_num) hfind).1⟩

/-- Fold body of `path_length` (`src/lib/src/length.rs`, lines 12–28):
`k` remaining chord segments, accumulating `alpha`, `f_last` and the running
sum. -/
def pathLengthAux (f : ℚ → Vertex) (sq : ℚ → ℚ) (step : ℚ) :
    ℕ → ℚ → Vertex → ℚ → ℚ
  | 0, _, _, acc => acc
  | k + 1, alpha, fLast, acc =>
    let alpha2 := alpha + step
    let fv := f alpha2
    pathLengthAux f sq step k alpha2 fv (acc + Vertex.distance sq fLast fv)

/-- `path_length` (`src/lib/src/length.rs`, lines 12–28): crude chord-sum
estimate of curve length; the source folds over `1..n`, i.e. `n - 1`
segments. -/
def path_length (f : ℚ → Vertex) (sq : ℚ → ℚ)
    (alphaStart alphaEnd : ℚ) (n : ℕ) : ℚ :=
  pathLengthAux f sq ((alphaEnd - alphaStart) / (n : ℚ)) (n - 1) alphaStart
    (f alphaStart) 0

/-- `FibreBuildError` from `src/lib/src/fibre.rs` (lines 47–52). -/
inductive FibreBuildError
  | nTriesExceed (n : ℕ)
  | nTriesTooLow (n : ℕ)
deriving DecidableEq, Repr

/-- The `'adaptive_loop'` of `Fibre::build` (`src/lib/src/fibre.rs`,
lines 139–163): propose `alpha = alpha_last + step`; beyond the domain end
accept immediately; otherwise compare the chord distance with the tolerance
band, shrinking the step by the factor `0.8` or growing it by `1.2` and
retrying, failing with `NTriesExceed` once the retry counter `i` passes
`n_tries`.  Returns the accepted `(alpha, point, step)`.  The `fuel`
argument only bounds the recursion; the source's loop needs at most
`n_tries + 2` iterations, which is what the caller supplies. -/
def adaptiveLoop (fibre : ℚ → Vertex) (sq : ℚ → ℚ)
    (alphaEnd distanceMin distanceMax : ℚ) (nTries : ℕ) :
    ℕ → ℚ → Vertex → ℚ → ℕ →
      Option (Except FibreBuildError (ℚ × Vertex × ℚ))
  | 0, _, _, _, _ => none
  | fuel + 1, step, fLast, alphaLast, i =>
    let alpha := alphaLast + step
    let f := fibre alpha
    if alphaEnd < alpha then some (Except.ok (alpha, f, step))
    else
      let d := Vertex.distance sq fLast f
      if distanceMax < d then
        if nTries < i then some (Except.error (FibreBuildError.nTriesExceed nTries))
        else adaptiveLoop fibre sq alphaEnd distanceMin distanceMax nTries
          fuel (step * 0.8) fLast alphaLast (i + 1)
      else if d < distanceMin then
        if nTries < i then some (Except.error (FibreBuildError.nTriesExceed nTries))
        else adaptiveLoop fibre sq alphaEnd distanceMin distanceMax nTries
          fuel (step * 1.2) fLast alphaLast (i + 1)
      else some (Except.ok (alpha, f, step))

/-- The `'outer'` loop of `Fibre::build` (`src/lib/src/fibre.rs`,
lines 134–173): run the adaptive inner loop with a fresh retry counter,
push the accepted point and parameter, and stop once the accepted parameter
reaches the domain end. -/
def buildLoop (fibre : ℚ → Vertex) (sq : ℚ → ℚ)
    (alphaEnd distanceMin distanceMax : ℚ) (nTries : ℕ) :
    ℕ → ℚ → Vertex → ℚ → List Vertex → List ℚ →
      Option (Except FibreBuildError (List Vertex × List ℚ))
  | 0, _, _, _, _, _ => none
  | fuel + 1, step, fLast, alphaLast, points, alphas =>
    match adaptiveLoop fibre sq alphaEnd distanceMin distanceMax nTries
      (nTries + 2) step fLast alphaLast 0 with
    | none => none
    | some (Except.error e) => some (Except.error e)
    | some (Except.ok (alpha, f, step2)) =>
      let points2 := points ++ [f]
      let alphas2 := alphas ++ [alpha]
      if alphaEnd ≤ alpha then some (Except.ok (points2, alphas2))
      else buildLoop fibre sq alphaEnd distanceMin distanceMax nTries
        fuel step2 f alpha points2 alphas2

/-- `Fibre::build` (`src/lib/src/fibre.rs`, lines 105–180): adaptive
step-size resampling of the projected fibre over `[alphaStart, alphaEnd]`.
`fibre` is the closure returned by `projected_fibre`, `sq` stands for the
`f32` square root inside the chord-distance evaluations.
`TOLLERANCE = 0.001`; the tolerance band is `target_dist ± delta` with
`target_dist = path_length / target_samples` (10,000 length steps), the
initial parameter step is `4π / target_samples`. -/
def Fibre.build (fibre : ℚ → Vertex) (sq : ℚ → ℚ)
    (alphaStart alphaEnd : ℚ) (targetSamples nTries fuel : ℕ) :
    Option (Except FibreBuildError (List Vertex × List ℚ)) :=
  let len := path_length fibre sq alphaStart alphaEnd 10000
  let targetDist := len / (targetSamples : ℚ)
  let delta := 0.001 * targetDist
  let distanceMin := targetDist - delta
  let distanceMax := targetDist + delta
  let step := 4 * pi32 / (targetSamples : ℚ)
  buildLoop fibre sq alphaEnd distanceMin distanceMax nTries fuel step
    (fibre alphaStart) alphaStart [] []

/-- A successful inner adaptive loop accepts a parameter strictly beyond
`alpha_last` (the step stays positive through the `×0.8`/`×1.2`
adjustments), and hands back a positive step. -/
theorem adaptiveLoop_ok (fibre : ℚ → Vertex) (sq : ℚ → ℚ)
    (alphaEnd distanceMin distanceMax : ℚ) (nTries : ℕ) :
    ∀ (fuel : ℕ) (step : ℚ) (fLast : Vertex) (alphaLast : ℚ) (i : ℕ)
      (alpha : ℚ) (f : Vertex) (step2 : ℚ),
      0 < step →
      adaptiveLoop fibre sq alphaEnd distanceMin distanceMax nTries fuel
          step fLast alphaLast i =
        some (Except.ok (alpha, f, step2)) →
      alphaLast < alpha ∧ 0 < step2 := by
  intro fuel
  induction fuel with
  | zero => intro step fLast alphaLast i alpha f step2 hstep h; simp [adaptiveLoop] at h
  | succ fuel ih =>
    intro step fLast alphaLast i alpha f step2 hstep h
    rw [adaptiveLoop] at h
    by_cases hend : alphaEnd < alphaLast + step
    · rw [if_pos hend] at h
      simp only [Option.some_inj, Except.ok.injEq, Prod.mk.injEq] at h
      obtain ⟨h1, -, h3⟩ := h
      subst h1
      subst h3
      exact ⟨by linarith, hstep⟩
    · rw [if_neg hend] at h
      by_cases hmax : distanceMax <
          Vertex.distance sq fLast (fibre (alphaLast + step))
      · rw [if_pos hmax] at h
        by_cases htries : nTries < i
        · rw [if_pos htries] at h; exact absurd h (by simp)
        · rw [if_neg htries] at h
          exact ih _ _ _ _ _ _ _ (by positivity) h
      · rw [if_neg hmax] at h
        by_cases hmin : Vertex.distance sq fLast (fibre (alphaLast + step)) <
            distanceMin
        · rw [if_pos hmin] at h
          by_cases htries : nTries < i
          · rw [if_pos htries] at h; exact absurd h (by simp)
          · rw [if_neg htries] at h
            exact ih _ _ _ _ _ _ _ (by positivity) h
        · rw [if_neg hmin] at h
          simp only [Option.some_inj, Except.ok.injEq, Prod.mk.injEq] at h
          obtain ⟨h1, -, h3⟩ := h
          subst h1
          subst h3
          exact ⟨by linarith, hstep⟩

/-- Outer-loop invariant of `Fibre::build`: with a positive step, a
successful run extends a strictly increasing parameter list with parameters
strictly beyond both the running position `alpha_last` and the original
start `a0`, is nonempty, and ends at or beyond the domain end. -/
theorem buildLoop_ok (fibre : ℚ → Vertex) (sq : ℚ → ℚ)
    (alphaEnd distanceMin distanceMax : ℚ) (nTries : ℕ) (a0 : ℚ) :
    ∀ (fuel : ℕ) (step : ℚ) (fLast : Vertex) (alphaLast : ℚ)
      (points : List Vertex) (alphas : List ℚ)
      (pts : List Vertex) (res : List ℚ),
      0 < step →
      List.Chain' (· < ·) alphas →
      (∀ a ∈ alphas, a ≤ alphaLast) →
      (∀ a ∈ alphas, a0 < a) →
      a0 ≤ alphaLast →
      buildLoop fibre sq alphaEnd distanceMin distanceMax nTries fuel step
          fLast alphaLast points alphas = some (Except.ok (pts, res)) →
      List.Chain' (· < ·) res ∧ res ≠ [] ∧
        (∀ a ∈ res.getLast?, alphaEnd ≤ a) ∧ (∀ a ∈ res, a0 < a) := by
  intro fuel
  induction fuel with
  | zero =>
    intro step fLast alphaLast points alphas pts res hstep hchain hle hgt ha0 h
    simp [buildLoop] at h
  | succ fuel ih =>
    intro step fLast alphaLast points alphas pts res hstep hchain hle hgt ha0 h
    rw [buildLoop] at h
    rcases hA : adaptiveLoop fibre sq alphaEnd distanceMin distanceMax nTries
      (nTries + 2) step fLast alphaLast 0 with - | E
    · rw [hA] at h
      simp at h
    · rw [hA] at h
      rcases E with e | r
      · simp at h
      · obtain ⟨alpha, f, step2⟩ := r
        have hacc := adaptiveLoop_ok fibre sq alphaEnd distanceMin distanceMax
          nTries (nTries + 2) step fLast alphaLast 0 alpha f step2 hstep hA
        obtain ⟨hlt, hstep2⟩ := hacc
        have hchain2 : List.Chain' (· < ·) (alphas ++ [alpha]) := by
          refine List.Chain'.append hchain (List.chain'_singleton alpha) ?_
          intro x hx y hy
          simp only [List.head?_cons, Option.mem_def, Option.some_inj] at hy
          subst hy
          have hx2 := hle x (List.mem_of_mem_getLast? hx)
          linarith
        have hle2 : ∀ a ∈ alphas ++ [alpha], a ≤ alpha := by
          intro a ha
          rcases List.mem_append.mp ha with ha | ha
          · have := hle a ha
            linarith
          · simp only [List.mem_singleton] at ha
            exact le_of_eq ha
        have hgt2 : ∀ a ∈ alphas ++ [alpha], a0 < a := by
          intro a ha
          rcases List.mem_append.mp ha with ha | ha
          · exact hgt a ha
          · simp only [List.mem_singleton] at ha
            subst ha
            linarith
        simp only at h
        by_cases hend : alphaEnd ≤ alpha
        · rw [if_pos hend] at h
          simp only [Option.some_inj, Except.ok.injEq, Prod.mk.injEq] at h
          obtain ⟨-, hres⟩ := h
          subst hres
          refine ⟨hchain2, by simp, ?_, hgt2⟩
          intro a ha
          rw [List.getLast?_concat] at ha
          simp only [Option.mem_def, Option.some_inj] at ha
          subst ha
          exact hend
        · rw [if_neg hend] at h
          exact ih step2 f alpha (points ++ [f]) (alphas ++ [alpha]) pts res
            hstep2 hchain2 hle2 hgt2 (by linarith) h

/-- C6: every successful run of the adaptive resampling strategy
(`Fibre::build` with a positive sample target) returns its parameter values
in strictly increasing order, and terminates exactly when the last output
parameter reaches (or passes) the domain end. -/
theorem build_alphas_monotone (fibre : ℚ → Vertex) (sq : ℚ → ℚ)
    (alphaStart alphaEnd : ℚ) (targetSamples nTries fuel : ℕ)
    (pts : List Vertex) (alphas : List ℚ)
    (hN : 1 ≤ targetSamples)
    (h : Fibre.build fibre sq alphaStart alphaEnd targetSamples nTries fuel =
      some (Except.ok (pts, alphas))) :
    List.Chain' (· < ·) alphas ∧ alphas ≠ [] ∧
      ∀ a ∈ alphas.getLast?, alphaEnd ≤ a := by
  have hstep : 0 < 4 * pi32 / (targetSamples : ℚ) := by
    have h1 : (0 : ℚ) < (targetSamples : ℚ) := by
      exact_mod_cast Nat.lt_of_lt_of_le Nat.zero_lt_one hN
    have h2 : (0 : ℚ) < pi32 := by norm_num [pi32]
    positivity
  unfold Fibre.build at h
  have := buildLoop_ok fibre sq alphaEnd _ _ nTries alphaStart fuel _
    (fibre alphaStart) alphaStart [] [] pts alphas hstep (by simp)
    (by simp) (by simp) le_rfl h
  exact ⟨this.1, this.2.1, this.2.2.1⟩

/-- C10: in every successful run of the adaptive resampling strategy (with a
positive sample target), every returned parameter is strictly greater than
the domain start `a0`; in particular the parameter `a0` — and with it the
sample taken at the start of the curve — is never among the outputs. -/
theorem build_alphas_after_start (fibre : ℚ → Vertex) (sq : ℚ → ℚ)
    (alphaStart alphaEnd : ℚ) (targetSamples nTries fuel : ℕ)
    (pts : List Vertex) (alphas : List ℚ)
    (hN : 1 ≤ targetSamples)
    (h : Fibre.build fibre sq alphaStart alphaEnd targetSamples nTries fuel =
      some (Except.ok (pts, alphas))) :
    (∀ a ∈ alphas, alphaStart < a) ∧ alphaStart ∉ alphas := by
  have hstep : 0 < 4 * pi32 / (targetSamples : ℚ) := by
    have h1 : (0 : ℚ) < (targetSamples : ℚ) := by
      exact_mod_cast Nat.lt_of_lt_of_le Nat.zero_lt_one hN
    have h2 : (0 : ℚ) < pi32 := by norm_num [pi32]
    positivity
  unfold Fibre.build at h
  have hrun := buildLoop_ok fibre sq alphaEnd _ _ nTries alphaStart fuel _
    (fibre alphaStart) alphaStart [] [] pts alphas hstep (by simp)
    (by simp) (by simp) le_rfl h
  refine ⟨hrun.2.2.2, fun hmem => ?_⟩
  exact absurd (hrun.2.2.2 alphaStart hmem) (lt_irrefl alphaStart)

/-- Decidable equality of run results (`Except` carries no instance). -/
instance exceptDecEq {ε α : Type} [DecidableEq ε] [DecidableEq α] :
    DecidableEq (Except ε α) := fun a b =>
  match a, b with
  | Except.error x, Except.error y =>
    if h : x = y then isTrue (congrArg Except.error h)
    else isFalse (by intro hc; injection hc with h2; exact h h2)
  | Except.error _, Except.ok _ => isFalse (by intro hc; cases hc)
  | Except.ok _, Except.error _ => isFalse (by intro hc; cases hc)
  | Except.ok x, Except.ok y =>
    if h : x = y then isTrue (congrArg Except.ok h)
    else isFalse (by intro hc; injection hc with h2; exact h h2)

/-- With the zero square-root model every chord length vanishes, so the
`path_length` fold returns its accumulator. -/
theorem pathLengthAux_sqZero (f : ℚ → Vertex) (step : ℚ) :
    ∀ (k : ℕ) (alpha : ℚ) (fLast : Vertex) (acc : ℚ),
      pathLengthAux f (fun _ => 0) step k alpha fLast acc = acc := by
  intro k
  induction k with
  | zero => intro alpha fLast acc; rfl
  | succ k ih =>
    intro alpha fLast acc
    rw [pathLengthAux]
    simp only [Vertex.distance, Vertex.length]
    rw [ih]
    ring

/-- On the constant curve with the zero square-root model and a zero
tolerance band, the inner adaptive loop accepts the first proposal. -/
theorem adaptiveLoop_const (alphaEnd : ℚ) (nTries fuel : ℕ) (step : ℚ)
    (alphaLast : ℚ) (i : ℕ) :
    adaptiveLoop (fun _ => ⟨0, 0, 0⟩) (fun _ => 0) alphaEnd 0 0 nTries
        (fuel + 1) step ⟨0, 0, 0⟩ alphaLast i =
      some (Except.ok (alphaLast + step, ⟨0, 0, 0⟩, step)) := by
  rw [adaptiveLoop]
  by_cases h : alphaEnd < alphaLast + step
  · rw [if_pos h]
  · rw [if_neg h]
    simp [Vertex.distance, Vertex.length, Vertex.sub, Vertex.dot]

/-- Concrete two-sample run of `Fibre::build` on the constant curve with the
zero square-root model: both proposed steps are accepted immediately. -/
theorem build_const_eval :
    Fibre.build (fun _ => ⟨0, 0, 0⟩) (fun _ => 0) 0 (4 * pi32) 2 5 2 =
      some (Except.ok ([⟨0, 0, 0⟩, ⟨0, 0, 0⟩], [2 * pi32, 4 * pi32])) := by
  have hlen : path_length (fun _ => ⟨0, 0, 0⟩) (fun _ => 0) 0 (4 * pi32)
      10000 = 0 := by
    rw [path_length]
    exact pathLengthAux_sqZero _ _ _ _ _ _
  simp only [Fibre.build, hlen]
  norm_num
  rw [show (2 : ℕ) = 1 + 1 from rfl, buildLoop,
    show (5 : ℕ) + 2 = 6 + 1 from rfl, adaptiveLoop_const]
  norm_num [pi32]
  rw [show (1 : ℕ) = 0 + 1 from rfl, buildLoop,
    show (5 : ℕ) + 2 = 6 + 1 from rfl, adaptiveLoop_const]
  norm_num

/-- C6 (witness): the monotonicity theorem applied to the concrete run of
`build_const_eval`: the returned parameters `[2π, 4π]` are strictly
increasing and the last one reaches the domain end `4π`. -/
theorem build_alphas_monotone_witness :
    1 ≤ 2 ∧
      (List.Chain' (· < ·) [2 * pi32, 4 * pi32] ∧
        ([2 * pi32, 4 * pi32] : List ℚ) ≠ [] ∧
        ∀ a ∈ ([2 * pi32, 4 * pi32] : List ℚ).getLast?, 4 * pi32 ≤ a) :=
  ⟨by norm_num,
    build_alphas_monotone (fun _ => ⟨0, 0, 0⟩) (fun _ => 0) 0 (4 * pi32) 2 5 2
      [⟨0, 0, 0⟩, ⟨0, 0, 0⟩] [2 * pi32, 4 * pi32] (by norm_num)
      build_const_eval⟩

/-- Concrete one-sample run of `Fibre::build` on the constant curve with the
zero square-root model. -/
theorem build_const_eval_one :
    Fibre.build (fun _ => ⟨0, 0, 0⟩) (fun _ => 0) 0 (4 * pi32) 1 5 1 =
      some (Except.ok ([⟨0, 0, 0⟩], [4 * pi32])) := by
  have hlen : path_length (fun _ => ⟨0, 0, 0⟩) (fun _ => 0) 0 (4 * pi32)
      10000 = 0 := by
    rw [path_length]
    exact pathLengthAux_sqZero _ _ _ _ _ _
  simp only [Fibre.build, hlen]
  norm_num
  rw [show (1 : ℕ) = 0 + 1 from rfl, buildLoop,
    show (5 : ℕ) + 2 = 6 + 1 from rfl, adaptiveLoop_const]
  norm_num [pi32]

/-- C10 (witness): the strictly-after-start theorem applied to the concrete
run of `build_const_eval_one`: the single returned parameter `4π` is beyond
the start `0`, and `0` itself is not among the outputs. -/
theorem build_alphas_after_start_witness :
    1 ≤ 1 ∧
      ((∀ a ∈ ([4 * pi32] : List ℚ), (0 : ℚ) < a) ∧
        (0 : ℚ) ∉ ([4 * pi32] : List ℚ)) :=
  ⟨le_rfl,
    build_alphas_after_start (fun _ => ⟨0, 0, 0⟩) (fun _ => 0) 0 (4 * pi32)
      1 5 1 [⟨0, 0, 0⟩] [4 * pi32] le_rfl build_const_eval_one⟩
